import Mathlib

/-!
Shallow embedding of `core/src/autogluon/core/utils/mo_hbo_utils.py`.

Python dictionaries are modelled as insertion-ordered association lists,
`float` values as `ℚ`, and failure (raised exceptions) as `Except String`.
-/

/-- One record of the returned Pareto front: the Python dict
`{"task_id-ressource": (task_id, step), name1: v1, ...}`.  The special
reference key is the structure field `task_id_ressource`; the remaining
per-objective entries are kept as an insertion-ordered association list. -/
structure FrontRecord where
  task_id_ressource : String × Nat
  values : List (String × ℚ)
deriving DecidableEq

/-- Python dict lookup `res_dict[k]` on a result record: `none` models a
`KeyError`. -/
def dictGet (res : List (String × ℚ)) (key : String) : Option ℚ :=
  match res with
  | [] => none
  | p :: rest => if p.1 = key then some p.2 else dictGet rest key

/-- The list comprehension `[res_dict[k] for k in objectives]`: one value per
objective, in objective-spec order; a missing key aborts with a KeyError. -/
def extractRow (ob : List (String × String)) (res : List (String × ℚ)) :
    Except String (List ℚ) :=
  match ob with
  | [] => Except.ok []
  | o :: rest =>
    match dictGet res o.1 with
    | none => Except.error "KeyError"
    | some v =>
      match extractRow rest res with
      | Except.error e => Except.error e
      | Except.ok vs => Except.ok (v :: vs)

/-- The inner loop `for step, res_dict in enumerate(task_res)` of
`retrieve_pareto_front`: pairs each extracted row with the reference
`(task_id, step + 1)` (1-based step index).  `step` is the 0-based counter. -/
def flattenTask (ob : List (String × String)) (tid : String) :
    List (List (String × ℚ)) → Nat → Except String (List ((String × Nat) × List ℚ))
  | [], _ => Except.ok []
  | res :: rest, step =>
    match extractRow ob res with
    | Except.error e => Except.error e
    | Except.ok row =>
      match flattenTask ob tid rest (step + 1) with
      | Except.error e => Except.error e
      | Except.ok l => Except.ok (((tid, step + 1), row) :: l)

/-- The outer loop `for task_id, task_res in training_history.items()`:
builds `refs` and `vals` in flattening order (here fused into one list of
pairs, exactly as the two Python lists are appended in lockstep). -/
def flattenHistory (th : List (String × List (List (String × ℚ)))) (ob : List (String × String)) :
    Except String (List ((String × Nat) × List ℚ)) :=
  match th with
  | [] => Except.ok []
  | (tid, res) :: rest =>
    match flattenTask ob tid res 0 with
    | Except.error e => Except.error e
    | Except.ok l =>
      match flattenHistory rest ob with
      | Except.error e => Except.error e
      | Except.ok l2 => Except.ok (l ++ l2)

/-- The lookup `converter[objectives[k]]` with
`converter = {"MIN": -1.0, "MAX": 1.0}`; `none` models the `KeyError`. -/
def converter (dir : String) : Option ℚ :=
  if dir = "MIN" then some (-1) else if dir = "MAX" then some 1 else none

/-- `prepare_sign_vector`: the comprehension
`[converter[objectives[k]] for k in objectives]`; a `KeyError` on any
direction is caught and re-raised as a `ValueError`, discarding any partial
result. -/
def prepare_sign_vector : List (String × String) → Except String (List ℚ)
  | [] => Except.ok []
  | o :: rest =>
    match converter o.2 with
    | none => Except.error "ValueError: Allowed values are MIN and MAX"
    | some s =>
      match prepare_sign_vector rest with
      | Except.error e => Except.error e
      | Except.ok v => Except.ok (s :: v)

/-- One row of `a_vals = vals * (-sign_vector)`. -/
def transformRow (row sign : List ℚ) : List ℚ :=
  List.zipWith (fun v s => v * (-s)) row sign

/-- `a_vals = vals * (-sign_vector)` with numpy broadcast semantics:
`np.array([])` of an empty `vals` has shape `(0,)`, which broadcasts against
the sign vector of shape `(k,)` only when `k ≤ 1`; otherwise numpy raises a
`ValueError` (shapes `(0,)` and `(k,)` are incompatible).  A nonempty `vals`
has shape `(n, k)` and multiplies row-wise. -/
def computeAVals (vals : List (List ℚ)) (sign : List ℚ) : Except String (List (List ℚ)) :=
  if vals.isEmpty then
    if sign.length ≤ 1 then Except.ok []
    else Except.error "ValueError: operands could not be broadcast together"
  else Except.ok (vals.map (fun row => transformRow row sign))

/-- `np.any(a_vals[j] <= c)` along the objective axis: point row `p` passes the
survival test against the current row `c` when it is `≤ c` in at least one
coordinate. -/
def anyLe (p c : List ℚ) : Bool :=
  (List.zipWith (fun a b => decide (a ≤ b)) p c).any id

/-- One iteration of the masking loop: if index `i` is still efficient,
`eff_mask[eff_mask] = np.any(a_vals[eff_mask] <= c, axis=1)` re-tests every
still-efficient point against `c = a_vals[i]` (entries already `false` stay
`false`, since `false && _ = false`). -/
def effStep (avals : List (List ℚ)) (mask : List Bool) (i : Nat) : List Bool :=
  if mask.getD i false then
    List.zipWith (fun m row => m && anyLe row (avals.getD i [])) mask avals
  else mask

/-- The masking loop run over an arbitrary processing order of indices
(the source processes `List.range n`; the generalization lets us settle
order-independence). -/
def effLoopOrder (avals : List (List ℚ)) (order : List Nat) : List Bool :=
  order.foldl (effStep avals) (List.replicate avals.length true)

/-- The masking loop exactly as in the source:
`for i, c in enumerate(a_vals): if eff_mask[i]: ...`. -/
def effLoop (avals : List (List ℚ)) : List Bool :=
  effLoopOrder avals (List.range avals.length)

/-- Default flattened point used only as the (never reachable) out-of-range
fallback of `List.getD`. -/
def defaultPoint : (String × Nat) × List ℚ := (("", 0), [])

/-- Building one front record
`r = {"task_id-ressource": refs[e]}; r[o] = vals[e][i]` from a flattened
point: untransformed values, objective-spec order. -/
def mkFrontRecord (ob : List (String × String)) (p : (String × Nat) × List ℚ) : FrontRecord :=
  { task_id_ressource := p.1,
    values := List.zipWith (fun o v => (o.1, v)) ob p.2 }

/-- `retrieve_pareto_front`: flatten the history, build the sign vector,
transform, run the masking loop, and emit one record per surviving index. -/
def retrieve_pareto_front (th : List (String × List (List (String × ℚ))))
    (ob : List (String × String)) : Except String (List FrontRecord) :=
  match flattenHistory th ob with
  | Except.error e => Except.error e
  | Except.ok flat =>
    match prepare_sign_vector ob with
    | Except.error e => Except.error e
    | Except.ok sign =>
      match computeAVals (flat.map (fun p => p.2)) sign with
      | Except.error e => Except.error e
      | Except.ok avals =>
        Except.ok (((List.range flat.length).filter
            (fun i => (effLoop avals).getD i false)).map
          (fun e => mkFrontRecord ob (flat.getD e defaultPoint)))

/-- `strictAllLt q p`: row `q` is strictly smaller than row `p` in every
coordinate (strong dominance of `p` by `q` under the minimization
convention); rows of different length never relate. -/
def strictAllLt : List ℚ → List ℚ → Bool
  | [], [] => true
  | q :: qs, p :: ps => decide (q < p) && strictAllLt qs ps
  | _, _ => false

/-- Order-independent reference filter: keep index `e` iff no other index
carries a row strictly smaller in every coordinate. -/
def specKeep (avals : List (List ℚ)) (e : Nat) : Bool :=
  !((List.range avals.length).any
    (fun j => (j != e) && strictAllLt (avals.getD j []) (avals.getD e [])))

/-- The order-independent mask: one `specKeep` bit per point. -/
def pareto_spec_mask (avals : List (List ℚ)) : List Bool :=
  (List.range avals.length).map (specKeep avals)

/-- Transformed rows of a flattened history (the matrix `a_vals`). -/
def avalsOf (flat : List ((String × Nat) × List ℚ)) (sign : List ℚ) : List (List ℚ) :=
  flat.map (fun p => transformRow p.2 sign)

/-- The integrity self-test `sum(sample) - 1 < 1e-6` of
`uniform_from_unit_simplex`, as a predicate on the sample sum.  Note the
source compares one-sidedly, without an absolute value. -/
def simplex_sum_check (s : ℚ) : Bool := decide (s - 1 < 1 / 1000000)

/-- `np.diff(uni, prepend=c)`: successive differences with an implicit
leading `c`. -/
def diffFrom (c : ℚ) : List ℚ → List ℚ
  | [] => []
  | a :: rest => (a - c) :: diffFrom a rest

/-- Last element of a list of rationals, with a default for the empty list
(models `uni[-1]` after the emptiness has been checked). -/
def lastD (d : ℚ) : List ℚ → ℚ
  | [] => d
  | a :: rest => lastD a rest

/-- The candidate sample `np.diff(uni, prepend=0) / uni[-1]` where
`uni = np.sort(draws)`. -/
def simplexSample (draws : List ℚ) : List ℚ :=
  (diffFrom 0 (List.insertionSort (fun a b => a ≤ b) draws)).map
    (fun x => x / lastD 0 (List.insertionSort (fun a b => a ≤ b) draws))

/-- `uniform_from_unit_simplex` with the random draws made explicit.
Failure modes of the float code, modelled as errors: an empty draw vector
makes `uni[-1]` raise an `IndexError`; a zero maximum makes every entry of
the sample `0.0/0.0 = NaN`, so `sum(sample) - 1 < 1e-6` compares `NaN` and is
`False`, firing the assertion; otherwise the assertion fires exactly when the
one-sided sum test fails. -/
def uniform_from_unit_simplex (draws : List ℚ) : Except String (List ℚ) :=
  if (List.insertionSort (fun a b => a ≤ b) draws).isEmpty then
    Except.error "IndexError"
  else if lastD 0 (List.insertionSort (fun a b => a ≤ b) draws) = 0 then
    Except.error "AssertionError: Error in weight sampling routine."
  else if simplex_sum_check (simplexSample draws).sum then
    Except.ok (simplexSample draws)
  else Except.error "AssertionError: Error in weight sampling routine."

/-! ### Basic list helpers -/

theorem getD_length_le {α : Type} (l : List α) (d : α) (j : Nat) (h : l.length ≤ j) :
    l.getD j d = d := by
  induction l generalizing j with
  | nil => rfl
  | cons a t ih =>
    cases j with
    | zero => simp at h
    | succ j => exact ih j (Nat.le_of_succ_le_succ h)

theorem getD_map {α β : Type} (f : α → β) (l : List α) (d : α) (d2 : β) (j : Nat)
    (h : j < l.length) : (l.map f).getD j d2 = f (l.getD j d) := by
  induction l generalizing j with
  | nil => simp at h
  | cons a t ih =>
    cases j with
    | zero => rfl
    | succ j => exact ih j (Nat.lt_of_succ_lt_succ h)

theorem getD_replicate (n j : Nat) (h : j < n) :
    (List.replicate n true).getD j false = true := by
  induction n generalizing j with
  | zero => simp at h
  | succ n ih =>
    cases j with
    | zero => rfl
    | succ j => exact ih j (Nat.lt_of_succ_lt_succ h)

theorem getD_mem {α : Type} (l : List α) (d : α) (j : Nat) (h : j < l.length) :
    l.getD j d ∈ l := by
  induction l generalizing j with
  | nil => simp at h
  | cons a t ih =>
    cases j with
    | zero => exact List.mem_cons_self a t
    | succ j => exact List.mem_cons_of_mem a (ih j (Nat.lt_of_succ_lt_succ h))

/-! ### Lemmas about `anyLe` and `strictAllLt` -/

theorem anyLe_nil (c : List ℚ) : anyLe [] c = false := rfl

theorem anyLe_cons (a b : ℚ) (p c : List ℚ) :
    anyLe (a :: p) (b :: c) = (decide (a ≤ b) || anyLe p c) := rfl

theorem anyLe_self (p : List ℚ) (h : p ≠ []) : anyLe p p = true := by
  cases p with
  | nil => exact absurd rfl h
  | cons a t => simp [anyLe_cons]

theorem strictAllLt_self_eq_false (p : List ℚ) (h : p ≠ []) : strictAllLt p p = false := by
  cases p with
  | nil => exact absurd rfl h
  | cons a t => simp [strictAllLt]

theorem strictAllLt_trans (a b c : List ℚ) (hab : strictAllLt a b = true)
    (hbc : strictAllLt b c = true) : strictAllLt a c = true := by
  induction a generalizing b c with
  | nil =>
    cases b with
    | nil => cases c with
      | nil => rfl
      | cons y ys => simp [strictAllLt] at hbc
    | cons x xs => simp [strictAllLt] at hab
  | cons x xs ih =>
    cases b with
    | nil => simp [strictAllLt] at hab
    | cons y ys =>
      cases c with
      | nil => simp [strictAllLt] at hbc
      | cons z zs =>
        simp only [strictAllLt, Bool.and_eq_true, decide_eq_true_eq] at hab hbc ⊢
        exact ⟨lt_trans hab.1 hbc.1, ih ys zs hab.2 hbc.2⟩

theorem anyLe_eq_false_iff (p c : List ℚ) (h : p.length = c.length) :
    anyLe p c = false ↔ strictAllLt c p = true := by
  induction p generalizing c with
  | nil =>
    cases c with
    | nil => simp [anyLe_nil, strictAllLt]
    | cons b cs => simp at h
  | cons a ps ih =>
    cases c with
    | nil => simp at h
    | cons b cs =>
      have hlen : ps.length = cs.length := by simpa using h
      simp only [anyLe_cons, strictAllLt, Bool.or_eq_false_iff, Bool.and_eq_true,
        decide_eq_false_iff_not, decide_eq_true_eq, not_le]
      constructor
      · intro ⟨h1, h2⟩
        exact ⟨h1, (ih cs hlen).mp h2⟩
      · intro ⟨h1, h2⟩
        exact ⟨h1, (ih cs hlen).mpr h2⟩

theorem getD_effStep_zip (c : List ℚ) (mask : List Bool) (avals : List (List ℚ)) (j : Nat) :
    (List.zipWith (fun m row => m && anyLe row c) mask avals).getD j false =
      (mask.getD j false && anyLe (avals.getD j []) c) := by
  induction mask generalizing avals j with
  | nil => simp
  | cons m ms ih =>
    cases avals with
    | nil =>
      simp only [List.zipWith_nil_right]
      cases j with
      | zero => simp [anyLe_nil]
      | succ j => simp [anyLe_nil]
    | cons r rs =>
      cases j with
      | zero => rfl
      | succ j => exact ih rs j

/-! ### The masking loop computes the strong-dominance filter -/

theorem lt_length_of_getD_true (l : List Bool) (j : Nat) (h : l.getD j false = true) :
    j < l.length := by
  by_contra hc
  rw [getD_length_le l false j (Nat.le_of_not_lt hc)] at h
  exact Bool.false_ne_true h

theorem getD_eq_getElem {α : Type} (l : List α) (d : α) (j : Nat) (h : j < l.length) :
    l.getD j d = l[j] := by
  induction l generalizing j with
  | nil => simp at h
  | cons a t ih =>
    cases j with
    | zero => rfl
    | succ j => exact ih j (Nat.lt_of_succ_lt_succ h)

/-- Invariant of the masking loop: the mask has the right length; every
cleared bit is justified by a strong dominator; and every strong dominator of
a still-set bit is itself still set and still awaits processing. -/
def EffInv (avals : List (List ℚ)) (mask : List Bool) (rem : List Nat) : Prop :=
  mask.length = avals.length ∧
  (∀ j, j < avals.length → mask.getD j false = false →
    ∃ i, i < avals.length ∧ i ≠ j ∧
      strictAllLt (avals.getD i []) (avals.getD j []) = true) ∧
  (∀ j i, mask.getD j false = true → i < avals.length →
    strictAllLt (avals.getD i []) (avals.getD j []) = true →
    mask.getD i false = true ∧ i ∈ rem)

theorem effStep_inv (avals : List (List ℚ)) (k : Nat) (hk : 0 < k)
    (hrows : ∀ r ∈ avals, r.length = k) (i0 : Nat) (rem : List Nat) (mask : List Bool)
    (hinv : EffInv avals mask (i0 :: rem)) : EffInv avals (effStep avals mask i0) rem := by
  obtain ⟨hlen, hsound, hlive⟩ := hinv
  unfold effStep
  by_cases hmi : mask.getD i0 false = true
  · rw [if_pos hmi]
    have hi0 : i0 < avals.length := hlen ▸ lt_length_of_getD_true mask i0 hmi
    have hclen : (avals.getD i0 []).length = k := hrows _ (getD_mem avals [] i0 hi0)
    refine ⟨?_, ?_, ?_⟩
    · rw [List.length_zipWith, hlen, Nat.min_self]
    · intro j hj hfalse
      rw [getD_effStep_zip] at hfalse
      have hjlen : (avals.getD j []).length = k := hrows _ (getD_mem avals [] j hj)
      cases hmj : mask.getD j false with
      | false => exact hsound j hj hmj
      | true =>
        rw [hmj, Bool.true_and] at hfalse
        have hdom : strictAllLt (avals.getD i0 []) (avals.getD j []) = true :=
          (anyLe_eq_false_iff _ _ (by rw [hjlen, hclen])).mp hfalse
        refine ⟨i0, hi0, ?_, hdom⟩
        intro heq
        rw [heq] at hdom
        have hne : avals.getD j [] ≠ [] := by
          intro h0
          rw [h0] at hjlen
          rw [← hjlen] at hk
          exact Nat.lt_irrefl 0 hk
        rw [strictAllLt_self_eq_false _ hne] at hdom
        exact Bool.false_ne_true hdom
    · intro j i htrue hi hdom
      rw [getD_effStep_zip, Bool.and_eq_true] at htrue
      obtain ⟨hmj, hanyj⟩ := htrue
      have hjm : j < mask.length := lt_length_of_getD_true mask j hmj
      have hj : j < avals.length := hlen ▸ hjm
      have hjlen : (avals.getD j []).length = k := hrows _ (getD_mem avals [] j hj)
      have hilen : (avals.getD i []).length = k := hrows _ (getD_mem avals [] i hi)
      obtain ⟨hmi2, hmem⟩ := hlive j i hmj hi hdom
      have hine : i ≠ i0 := by
        intro h
        rw [h] at hdom
        have := (anyLe_eq_false_iff (avals.getD j []) (avals.getD i0 [])
          (by rw [hjlen, hclen])).mpr hdom
        rw [this] at hanyj
        exact Bool.false_ne_true hanyj
      refine ⟨?_, ?_⟩
      · rw [getD_effStep_zip, hmi2, Bool.true_and]
        cases hal : anyLe (avals.getD i []) (avals.getD i0 []) with
        | true => rfl
        | false =>
          have hd2 : strictAllLt (avals.getD i0 []) (avals.getD i []) = true :=
            (anyLe_eq_false_iff _ _ (by rw [hilen, hclen])).mp hal
          have hd3 : strictAllLt (avals.getD i0 []) (avals.getD j []) = true :=
            strictAllLt_trans _ _ _ hd2 hdom
          have := (anyLe_eq_false_iff (avals.getD j []) (avals.getD i0 [])
            (by rw [hjlen, hclen])).mpr hd3
          rw [this] at hanyj
          exact absurd hanyj (Bool.false_ne_true)
      · rcases List.mem_cons.mp hmem with h | h
        · exact absurd h hine
        · exact h
  · rw [if_neg hmi]
    refine ⟨hlen, hsound, ?_⟩
    intro j i htrue hi hdom
    obtain ⟨hmi2, hmem⟩ := hlive j i htrue hi hdom
    refine ⟨hmi2, ?_⟩
    rcases List.mem_cons.mp hmem with h | h
    · rw [h] at hmi2
      exact absurd hmi2 hmi
    · exact h

theorem effFold_inv (avals : List (List ℚ)) (k : Nat) (hk : 0 < k)
    (hrows : ∀ r ∈ avals, r.length = k) :
    ∀ (order : List Nat) (mask : List Bool), EffInv avals mask order →
      EffInv avals (order.foldl (effStep avals) mask) [] := by
  intro order
  induction order with
  | nil => intro mask h; exact h
  | cons i0 rest ih =>
    intro mask h
    exact ih (effStep avals mask i0) (effStep_inv avals k hk hrows i0 rest mask h)

theorem specKeep_eq_false_iff (avals : List (List ℚ)) (e : Nat) :
    specKeep avals e = false ↔
      ∃ j, j < avals.length ∧ j ≠ e ∧
        strictAllLt (avals.getD j []) (avals.getD e []) = true := by
  simp only [specKeep, Bool.not_eq_false', List.any_eq_true, List.mem_range,
    Bool.and_eq_true, bne_iff_ne, ne_eq]

theorem specKeep_eq_true_iff (avals : List (List ℚ)) (e : Nat) :
    specKeep avals e = true ↔
      ∀ j, j < avals.length → j ≠ e →
        strictAllLt (avals.getD j []) (avals.getD e []) = false := by
  constructor
  · intro h j hj hne
    cases hd : strictAllLt (avals.getD j []) (avals.getD e []) with
    | false => rfl
    | true =>
      have hf := (specKeep_eq_false_iff avals e).mpr ⟨j, hj, hne, hd⟩
      rw [hf] at h
      exact absurd h Bool.false_ne_true
  · intro h
    cases hs : specKeep avals e with
    | true => rfl
    | false =>
      obtain ⟨j, hj, hne, hd⟩ := (specKeep_eq_false_iff avals e).mp hs
      rw [h j hj hne] at hd
      exact absurd hd Bool.false_ne_true

theorem effLoopOrder_eq_spec_core (avals : List (List ℚ)) (k : Nat) (order : List Nat)
    (hk : 0 < k) (hrows : ∀ r ∈ avals, r.length = k)
    (horder : ∀ i, i < avals.length → i ∈ order) :
    effLoopOrder avals order = pareto_spec_mask avals := by
  have hinit : EffInv avals (List.replicate avals.length true) order := by
    refine ⟨List.length_replicate _ _, ?_, ?_⟩
    · intro j hj hfalse
      rw [getD_replicate _ _ hj] at hfalse
      exact absurd hfalse (by simp)
    · intro j i _ hi _
      exact ⟨getD_replicate _ _ hi, horder i hi⟩
  obtain ⟨hlen, hsound, hlive⟩ := effFold_inv avals k hk hrows order _ hinit
  have hlenspec : (pareto_spec_mask avals).length = avals.length := by
    simp [pareto_spec_mask]
  have hgetD : ∀ j, j < avals.length →
      (effLoopOrder avals order).getD j false = specKeep avals j := by
    intro j hj
    cases hm : (effLoopOrder avals order).getD j false with
    | true =>
      have hkeep : specKeep avals j = true := by
        rw [specKeep_eq_true_iff]
        intro i hi hne
        cases hd : strictAllLt (avals.getD i []) (avals.getD j []) with
        | false => rfl
        | true =>
          obtain ⟨_, hmem⟩ := hlive j i hm hi hd
          exact absurd hmem (List.not_mem_nil i)
      rw [hkeep]
    | false =>
      obtain ⟨i, hi, hne, hd⟩ := hsound j hj hm
      have : specKeep avals j = false := (specKeep_eq_false_iff avals j).mpr ⟨i, hi, hne, hd⟩
      rw [this]
  have hlen2 : (effLoopOrder avals order).length = avals.length := hlen
  apply List.ext_getElem (by rw [hlenspec]; exact hlen2)
  intro j h1 h2
  have hj : j < avals.length := hlen2 ▸ h1
  have e1 := getD_eq_getElem (effLoopOrder avals order) false j h1
  have e2 := getD_eq_getElem (pareto_spec_mask avals) false j h2
  have hspecD : (pareto_spec_mask avals).getD j false = specKeep avals j := by
    rw [pareto_spec_mask, getD_map (specKeep avals) (List.range avals.length) 0 false j
      (by simpa using hj)]
    congr 1
    rw [getD_eq_getElem (List.range avals.length) 0 j (by simpa using hj)]
    exact List.getElem_range j (by simpa using hj)
  rw [← e1, ← e2, hgetD j hj, hspecD]

/-! ### Structure of the flattened history and the sign vector -/

theorem extractRow_length (ob : List (String × String)) (res : List (String × ℚ))
    (row : List ℚ) (h : extractRow ob res = Except.ok row) : row.length = ob.length := by
  induction ob generalizing row with
  | nil =>
    rw [extractRow] at h
    cases h
    rfl
  | cons o rest ih =>
    rw [extractRow] at h
    cases hd : dictGet res o.1 with
    | none => rw [hd] at h; cases h
    | some v =>
      rw [hd] at h
      cases he : extractRow rest res with
      | error e => rw [he] at h; cases h
      | ok vs =>
        rw [he] at h
        cases h
        simp [ih vs he]

theorem prepare_sign_vector_length (ob : List (String × String)) (sign : List ℚ)
    (h : prepare_sign_vector ob = Except.ok sign) : sign.length = ob.length := by
  induction ob generalizing sign with
  | nil =>
    rw [prepare_sign_vector] at h
    cases h
    rfl
  | cons o rest ih =>
    rw [prepare_sign_vector] at h
    cases hc : converter o.2 with
    | none => rw [hc] at h; cases h
    | some s =>
      rw [hc] at h
      cases he : prepare_sign_vector rest with
      | error e => rw [he] at h; cases h
      | ok v =>
        rw [he] at h
        cases h
        simp [ih v he]

theorem flattenTask_mem (ob : List (String × String)) (tid : String)
    (res : List (List (String × ℚ))) (s : Nat) (l : List ((String × Nat) × List ℚ))
    (h : flattenTask ob tid res s = Except.ok l) :
    ∀ p ∈ l, ∃ j, j < res.length ∧ extractRow ob (res.getD j []) = Except.ok p.2 ∧
      p.1 = (tid, s + j + 1) := by
  induction res generalizing s l with
  | nil =>
    rw [flattenTask] at h
    cases h
    intro p hp
    simp at hp
  | cons r rest ih =>
    rw [flattenTask] at h
    cases he : extractRow ob r with
    | error e => rw [he] at h; cases h
    | ok row =>
      rw [he] at h
      cases ht : flattenTask ob tid rest (s + 1) with
      | error e => rw [ht] at h; cases h
      | ok l2 =>
        rw [ht] at h
        cases h
        intro p hp
        rcases List.mem_cons.mp hp with hp | hp
        · subst hp
          exact ⟨0, Nat.succ_pos _, he, by simp⟩
        · obtain ⟨j, hj, hrow, href⟩ := ih (s + 1) l2 ht p hp
          refine ⟨j + 1, Nat.succ_lt_succ hj, ?_, ?_⟩
          · simpa using hrow
          · rw [href]
            congr 1
            omega

theorem flattenHistory_mem (th : List (String × List (List (String × ℚ))))
    (ob : List (String × String)) (flat : List ((String × Nat) × List ℚ))
    (h : flattenHistory th ob = Except.ok flat) :
    ∀ p ∈ flat, ∃ tid results j, (tid, results) ∈ th ∧ j < results.length ∧
      extractRow ob (results.getD j []) = Except.ok p.2 ∧ p.1 = (tid, j + 1) := by
  induction th generalizing flat with
  | nil =>
    rw [flattenHistory] at h
    cases h
    intro p hp
    simp at hp
  | cons t rest ih =>
    rw [flattenHistory] at h
    cases ht : flattenTask ob t.1 t.2 0 with
    | error e => rw [ht] at h; cases h
    | ok l =>
      rw [ht] at h
      cases hr : flattenHistory rest ob with
      | error e => rw [hr] at h; cases h
      | ok l2 =>
        rw [hr] at h
        cases h
        intro p hp
        rcases List.mem_append.mp hp with hp | hp
        · obtain ⟨j, hj, hrow, href⟩ := flattenTask_mem ob t.1 t.2 0 l ht p hp
          refine ⟨t.1, t.2, j, List.mem_cons_self _ _, hj, hrow, ?_⟩
          rw [href]
          congr 1
          omega
        · obtain ⟨tid, results, j, hmem, hj, hrow, href⟩ := ih l2 hr p hp
          exact ⟨tid, results, j, List.mem_cons_of_mem _ hmem, hj, hrow, href⟩

theorem flattenHistory_row_length (th : List (String × List (List (String × ℚ))))
    (ob : List (String × String)) (flat : List ((String × Nat) × List ℚ))
    (h : flattenHistory th ob = Except.ok flat) :
    ∀ p ∈ flat, p.2.length = ob.length := by
  intro p hp
  obtain ⟨tid, results, j, _, _, hrow, _⟩ := flattenHistory_mem th ob flat h p hp
  exact extractRow_length ob _ p.2 hrow

theorem avalsOf_row_length (flat : List ((String × Nat) × List ℚ)) (sign : List ℚ) (k : Nat)
    (hflat : ∀ p ∈ flat, p.2.length = k) (hsign : sign.length = k) :
    ∀ r ∈ avalsOf flat sign, r.length = k := by
  intro r hr
  rw [avalsOf] at hr
  obtain ⟨p, hp, rfl⟩ := List.mem_map.mp hr
  rw [transformRow, List.length_zipWith, hflat p hp, hsign, Nat.min_self]

theorem effLoop_getD_eq_specKeep (avals : List (List ℚ)) (k : Nat) (hk : 0 < k)
    (hrows : ∀ r ∈ avals, r.length = k) (j : Nat) (hj : j < avals.length) :
    (effLoop avals).getD j false = specKeep avals j := by
  rw [effLoop, effLoopOrder_eq_spec_core avals k (List.range avals.length) hk hrows
    (fun i hi => List.mem_range.mpr hi)]
  rw [pareto_spec_mask, getD_map (specKeep avals) (List.range avals.length) 0 false j
    (by simpa using hj)]
  congr 1
  rw [getD_eq_getElem (List.range avals.length) 0 j (by simpa using hj)]
  exact List.getElem_range j (by simpa using hj)

/-! ### The full filter as a strong-dominance filter over the flattening -/

theorem retrieve_eq_spec (th : List (String × List (List (String × ℚ))))
    (ob : List (String × String)) (flat : List ((String × Nat) × List ℚ)) (sign : List ℚ)
    (hk : 0 < ob.length)
    (hf : flattenHistory th ob = Except.ok flat)
    (hs : prepare_sign_vector ob = Except.ok sign)
    (hne : flat ≠ []) :
    retrieve_pareto_front th ob = Except.ok
      (((List.range flat.length).filter (fun e => specKeep (avalsOf flat sign) e)).map
        (fun e => mkFrontRecord ob (flat.getD e defaultPoint))) := by
  have hmapne : (flat.map (fun p => p.2)).isEmpty = false := by
    cases flat with
    | nil => exact absurd rfl hne
    | cons a t => rfl
  have hca : computeAVals (flat.map (fun p => p.2)) sign = Except.ok (avalsOf flat sign) := by
    rw [computeAVals, hmapne]
    simp only [Bool.false_eq_true, if_false]
    rw [avalsOf, List.map_map]
    rfl
  have hstep : retrieve_pareto_front th ob = Except.ok
      (((List.range flat.length).filter (fun i => (effLoop (avalsOf flat sign)).getD i false)).map
        (fun e => mkFrontRecord ob (flat.getD e defaultPoint))) := by
    unfold retrieve_pareto_front
    rw [hf, hs]
    show (match computeAVals (List.map (fun p => p.2) flat) sign with
      | Except.error e => Except.error e
      | Except.ok avals =>
        Except.ok
          (List.map (fun e => mkFrontRecord ob (flat.getD e defaultPoint))
            (List.filter (fun i => (effLoop avals).getD i false)
              (List.range flat.length)))) = _
    rw [hca]
  have hlenav : (avalsOf flat sign).length = flat.length := by
    rw [avalsOf, List.length_map]
  have hrows : ∀ r ∈ avalsOf flat sign, r.length = ob.length :=
    avalsOf_row_length flat sign ob.length (flattenHistory_row_length th ob flat hf)
      (prepare_sign_vector_length ob sign hs)
  have hfilter : (List.range flat.length).filter
        (fun i => (effLoop (avalsOf flat sign)).getD i false)
      = (List.range flat.length).filter (fun e => specKeep (avalsOf flat sign) e) := by
    apply List.filter_congr
    intro x hx
    exact effLoop_getD_eq_specKeep (avalsOf flat sign) ob.length hk hrows x
      (by rw [hlenav]; exact List.mem_range.mp hx)
  rw [hstep, hfilter]

/-! ### Simplex sampler lemmas -/

theorem sum_map_div (l : List ℚ) (m : ℚ) : (l.map (fun x => x / m)).sum = l.sum / m := by
  induction l with
  | nil => simp
  | cons a t ih => simp [ih, add_div]

theorem diffFrom_sum (l : List ℚ) : ∀ c, (diffFrom c l).sum = lastD c l - c := by
  induction l with
  | nil => intro c; simp [diffFrom, lastD]
  | cons a t ih =>
    intro c
    rw [diffFrom, lastD, List.sum_cons, ih a]
    ring

theorem diffFrom_length (l : List ℚ) : ∀ c, (diffFrom c l).length = l.length := by
  induction l with
  | nil => intro c; rfl
  | cons a t ih => intro c; simp [diffFrom, ih a]

theorem sorted_le_lastD (l : List ℚ) :
    ∀ a, List.Sorted (fun x y => x ≤ y) l → (∀ b ∈ l, a ≤ b) → a ≤ lastD a l := by
  induction l with
  | nil => intro a _ _; exact le_refl a
  | cons b t ih =>
    intro a hs hb
    rw [lastD]
    have hs2 := List.sorted_cons.mp hs
    exact le_trans (hb b (List.mem_cons_self b t)) (ih b hs2.2 hs2.1)

theorem mem_le_lastD (l : List ℚ) :
    ∀ c x, List.Sorted (fun a b => a ≤ b) l → x ∈ l → x ≤ lastD c l := by
  induction l with
  | nil => intro c x _ hx; simp at hx
  | cons a t ih =>
    intro c x hs hx
    rw [lastD]
    have hs2 := List.sorted_cons.mp hs
    rcases List.mem_cons.mp hx with h | h
    · subst h
      exact sorted_le_lastD t x hs2.2 hs2.1
    · exact ih a x hs2.2 h

theorem diffFrom_nonneg (l : List ℚ) :
    ∀ c, List.Sorted (fun a b => a ≤ b) l → (∀ x ∈ l, c ≤ x) →
      ∀ y ∈ diffFrom c l, 0 ≤ y := by
  induction l with
  | nil => intro c _ _ y hy; simp [diffFrom] at hy
  | cons a t ih =>
    intro c hs hc y hy
    rw [diffFrom] at hy
    have hs2 := List.sorted_cons.mp hs
    rcases List.mem_cons.mp hy with h | h
    · subst h
      have := hc a (List.mem_cons_self a t)
      linarith
    · exact ih a hs2.2 hs2.1 y h

theorem simplexSample_sum (draws : List ℚ)
    (hm : lastD 0 (List.insertionSort (fun a b => a ≤ b) draws) ≠ 0) :
    (simplexSample draws).sum = 1 := by
  rw [simplexSample, sum_map_div, diffFrom_sum, sub_zero, div_self hm]

theorem simplexSample_length (draws : List ℚ) :
    (simplexSample draws).length = draws.length := by
  rw [simplexSample, List.length_map, diffFrom_length]
  exact (List.perm_insertionSort (fun a b => a ≤ b) draws).length_eq

theorem insertionSort_isEmpty_false (draws : List ℚ) (hne : draws ≠ []) :
    (List.insertionSort (fun a b => a ≤ b) draws).isEmpty = false := by
  cases hcase : List.insertionSort (fun a b => a ≤ b) draws with
  | nil =>
    have hlen := (List.perm_insertionSort (fun a b => a ≤ b) draws).length_eq
    rw [hcase] at hlen
    cases draws with
    | nil => exact absurd rfl hne
    | cons a t => simp at hlen
  | cons a t => rfl

theorem simplex_ok_core (draws : List ℚ) (hne : draws ≠ [])
    (hpos : 0 < lastD 0 (List.insertionSort (fun a b => a ≤ b) draws)) :
    uniform_from_unit_simplex draws = Except.ok (simplexSample draws) := by
  have hm : lastD 0 (List.insertionSort (fun a b => a ≤ b) draws) ≠ 0 := ne_of_gt hpos
  rw [uniform_from_unit_simplex, insertionSort_isEmpty_false draws hne]
  rw [if_neg (by simp), if_neg hm]
  have hcheck : simplex_sum_check (simplexSample draws).sum = true := by
    rw [simplexSample_sum draws hm, simplex_sum_check]
    simp only [decide_eq_true_eq]
    norm_num
  rw [if_pos hcheck]

/-! ### Unfolding lemmas for `retrieve_pareto_front` -/

theorem retrieve_unfold (th : List (String × List (List (String × ℚ))))
    (ob : List (String × String)) (flat : List ((String × Nat) × List ℚ)) (sign : List ℚ)
    (avals : List (List ℚ))
    (hf : flattenHistory th ob = Except.ok flat)
    (hs : prepare_sign_vector ob = Except.ok sign)
    (hca : computeAVals (flat.map (fun p => p.2)) sign = Except.ok avals) :
    retrieve_pareto_front th ob = Except.ok
      (((List.range flat.length).filter (fun i => (effLoop avals).getD i false)).map
        (fun e => mkFrontRecord ob (flat.getD e defaultPoint))) := by
  unfold retrieve_pareto_front
  rw [hf, hs]
  show (match computeAVals (List.map (fun p => p.2) flat) sign with
    | Except.error e => Except.error e
    | Except.ok avals =>
      Except.ok
        (List.map (fun e => mkFrontRecord ob (flat.getD e defaultPoint))
          (List.filter (fun i => (effLoop avals).getD i false)
            (List.range flat.length)))) = _
  rw [hca]

theorem retrieve_flatten_error (th : List (String × List (List (String × ℚ))))
    (ob : List (String × String)) (e : String)
    (hf : flattenHistory th ob = Except.error e) :
    retrieve_pareto_front th ob = Except.error e := by
  unfold retrieve_pareto_front
  rw [hf]

theorem retrieve_sign_error (th : List (String × List (List (String × ℚ))))
    (ob : List (String × String)) (flat : List ((String × Nat) × List ℚ)) (e : String)
    (hf : flattenHistory th ob = Except.ok flat)
    (hs : prepare_sign_vector ob = Except.error e) :
    retrieve_pareto_front th ob = Except.error e := by
  unfold retrieve_pareto_front
  rw [hf, hs]

theorem retrieve_avals_error (th : List (String × List (List (String × ℚ))))
    (ob : List (String × String)) (flat : List ((String × Nat) × List ℚ)) (sign : List ℚ)
    (e : String)
    (hf : flattenHistory th ob = Except.ok flat)
    (hs : prepare_sign_vector ob = Except.ok sign)
    (hca : computeAVals (flat.map (fun p => p.2)) sign = Except.error e) :
    retrieve_pareto_front th ob = Except.error e := by
  unfold retrieve_pareto_front
  rw [hf, hs]
  show (match computeAVals (List.map (fun p => p.2) flat) sign with
    | Except.error e => Except.error e
    | Except.ok avals =>
      Except.ok
        (List.map (fun e => mkFrontRecord ob (flat.getD e defaultPoint))
          (List.filter (fun i => (effLoop avals).getD i false)
            (List.range flat.length)))) = _
  rw [hca]

theorem retrieve_ok_elim (th : List (String × List (List (String × ℚ))))
    (ob : List (String × String)) (front : List FrontRecord)
    (hret : retrieve_pareto_front th ob = Except.ok front) :
    ∃ flat sign avals, flattenHistory th ob = Except.ok flat ∧
      prepare_sign_vector ob = Except.ok sign ∧
      computeAVals (flat.map (fun p => p.2)) sign = Except.ok avals ∧
      front = ((List.range flat.length).filter (fun i => (effLoop avals).getD i false)).map
        (fun e => mkFrontRecord ob (flat.getD e defaultPoint)) := by
  cases hf : flattenHistory th ob with
  | error e =>
    rw [retrieve_flatten_error th ob e hf] at hret
    exact Except.noConfusion hret
  | ok flat =>
    cases hs : prepare_sign_vector ob with
    | error e =>
      rw [retrieve_sign_error th ob flat e hf hs] at hret
      exact Except.noConfusion hret
    | ok sign =>
      cases hca : computeAVals (flat.map (fun p => p.2)) sign with
      | error e =>
        rw [retrieve_avals_error th ob flat sign e hf hs hca] at hret
        exact Except.noConfusion hret
      | ok avals =>
        refine ⟨flat, sign, avals, rfl, rfl, hca, ?_⟩
        rw [retrieve_unfold th ob flat sign avals hf hs hca] at hret
        injection hret with h
        exact h.symm

/-! ### Sign vector: full characterization for valid specs -/

theorem sign_vector_spec_core (ob : List (String × String))
    (hv : ∀ o ∈ ob, o.2 = "MIN" ∨ o.2 = "MAX") :
    ∃ sign, prepare_sign_vector ob = Except.ok sign ∧ sign.length = ob.length ∧
      ∀ i, i < ob.length →
        sign.getD i 0 = (if (ob.getD i ("", "")).2 = "MIN" then -1 else 1) := by
  induction ob with
  | nil => exact ⟨[], rfl, rfl, fun i hi => absurd hi (by simp)⟩
  | cons o rest ih =>
    obtain ⟨sign, hs, hlen, hval⟩ := ih (fun x hx => hv x (List.mem_cons_of_mem o hx))
    rcases hv o (List.mem_cons_self o rest) with h | h
    · refine ⟨-1 :: sign, ?_, by simp [hlen], ?_⟩
      · rw [prepare_sign_vector, converter, if_pos h, hs]
      · intro i hi
        cases i with
        | zero => simp [h]
        | succ i =>
          have := hval i (by simpa using hi)
          simpa using this
    · have hnm : o.2 ≠ "MIN" := by rw [h]; decide
      refine ⟨1 :: sign, ?_, by simp [hlen], ?_⟩
      · rw [prepare_sign_vector, converter, if_neg hnm, if_pos h, hs]
      · intro i hi
        cases i with
        | zero => simp [hnm]
        | succ i =>
          have := hval i (by simpa using hi)
          simpa using this

theorem avalsOf_getD (flat : List ((String × Nat) × List ℚ)) (sign : List ℚ) (e : Nat)
    (he : e < flat.length) :
    (avalsOf flat sign).getD e [] = transformRow (flat.getD e defaultPoint).2 sign := by
  rw [avalsOf, getD_map (fun p => transformRow p.2 sign) flat defaultPoint [] e he]

/-! ### Claim theorems -/

/-- C4: for every objective spec whose direction values are all exactly "MIN"
or "MAX", the sign-vector builder returns a vector whose length equals the
number of objectives, whose order matches the spec iteration order, and whose
entries are exactly -1 for "MIN" and +1 for "MAX". -/
theorem prepare_sign_vector_spec (ob : List (String × String))
    (hv : ∀ o ∈ ob, o.2 = "MIN" ∨ o.2 = "MAX") :
    ∃ sign, prepare_sign_vector ob = Except.ok sign ∧ sign.length = ob.length ∧
      ∀ i, i < ob.length →
        sign.getD i 0 = (if (ob.getD i ("", "")).2 = "MIN" then -1 else 1) :=
  sign_vector_spec_core ob hv

/-- Witness for C4 at the concrete spec [("a","MIN"), ("b","MAX")]. -/
theorem prepare_sign_vector_spec_witness :
    ∃ sign, prepare_sign_vector [("a", "MIN"), ("b", "MAX")] = Except.ok sign ∧
      sign.length = 2 ∧
      ∀ i, i < 2 → sign.getD i 0 =
        (if (([("a", "MIN"), ("b", "MAX")] : List (String × String)).getD i ("", "")).2 = "MIN"
          then (-1 : ℚ) else 1) :=
  prepare_sign_vector_spec [("a", "MIN"), ("b", "MAX")] (by decide)

/-- C5: the sign-vector builder fails (the ValueError standing for the spec
name InvalidObjectiveDirection) iff some direction differs from the exact,
case-sensitive strings "MIN" and "MAX"; with only the two recognized literals
it does not fail.  In the `Except` embedding an error carries no partial
result. -/
theorem prepare_sign_vector_error_iff (ob : List (String × String)) :
    (∃ e, prepare_sign_vector ob = Except.error e) ↔
      ∃ o ∈ ob, o.2 ≠ "MIN" ∧ o.2 ≠ "MAX" := by
  induction ob with
  | nil => simp [prepare_sign_vector]
  | cons o rest ih =>
    rw [prepare_sign_vector]
    cases hc : converter o.2 with
    | none =>
      have hbad : o.2 ≠ "MIN" ∧ o.2 ≠ "MAX" := by
        rw [converter] at hc
        by_cases h1 : o.2 = "MIN"
        · rw [if_pos h1] at hc; cases hc
        · rw [if_neg h1] at hc
          by_cases h2 : o.2 = "MAX"
          · rw [if_pos h2] at hc; cases hc
          · exact ⟨h1, h2⟩
      constructor
      · intro _
        exact ⟨o, List.mem_cons_self o rest, hbad⟩
      · intro _
        exact ⟨_, rfl⟩
    | some s =>
      have hgood : ¬(o.2 ≠ "MIN" ∧ o.2 ≠ "MAX") := by
        rw [converter] at hc
        by_cases h1 : o.2 = "MIN"
        · intro h; exact h.1 h1
        · rw [if_neg h1] at hc
          by_cases h2 : o.2 = "MAX"
          · intro h; exact h.2 h2
          · rw [if_neg h2] at hc; cases hc
      cases hr : prepare_sign_vector rest with
      | error e =>
        constructor
        · intro _
          obtain ⟨o2, hm, hb⟩ := ih.mp ⟨e, hr⟩
          exact ⟨o2, List.mem_cons_of_mem o hm, hb⟩
        · intro _
          exact ⟨e, rfl⟩
      | ok v =>
        constructor
        · intro ⟨e, he⟩
          cases he
        · intro ⟨o2, hm, hb⟩
          rcases List.mem_cons.mp hm with h | h
          · subst h
            exact absurd hb hgood
          · obtain ⟨e, he⟩ := ih.mpr ⟨o2, h, hb⟩
            rw [he] at hr
            cases hr

/-- C6: the integrity self-check of the simplex sampler is one-sided.  A
sample sum of 1/2 deviates from 1 by 1/2, far more than the tolerance 1e-6,
yet the source test `sum(sample) - 1 < 1e-6` passes (no assertion error), so
the claimed raise-iff-|sum-1|>1e-6 behavior does not hold: the check never
fires for sums below 1. -/
theorem sum_check_passes_despite_large_deviation :
    simplex_sum_check (1 / 2) = true ∧ (1 : ℚ) / 1000000 < |(1 : ℚ) / 2 - 1| := by
  constructor
  · rw [simplex_sum_check]
    simp only [decide_eq_true_eq]
    norm_num
  · rw [show ((1 : ℚ) / 2 - 1) = -(1 / 2) by norm_num]
    rw [abs_neg, abs_of_pos (by norm_num : (0 : ℚ) < 1 / 2)]
    norm_num

/-- C7 counterexample: the single draw 0 lies in the half-open interval
[0, 1), so it is a legal sequence of d = 1 draws, but the sampler divides by
a zero maximum and fails (NaN sample, assertion fires) instead of returning
exactly [1.0]. -/
theorem simplex_zero_draw_not_one :
    uniform_from_unit_simplex [(0 : ℚ)] =
      Except.error "AssertionError: Error in weight sampling routine." := by rfl

/-- C7 (amended): under the precondition that the largest draw is strictly
positive, the sampler returns a vector of the same length as the draws, with
non-negative entries (for draws in [0,1)) summing to exactly 1, and a
single positive draw yields exactly [1]. -/
theorem simplex_sample_spec_under_positive_max (draws : List ℚ)
    (hnn : ∀ x ∈ draws, 0 ≤ x) (hpos : ∃ x ∈ draws, 0 < x) :
    ∃ sample, uniform_from_unit_simplex draws = Except.ok sample ∧
      sample.length = draws.length ∧ (∀ y ∈ sample, 0 ≤ y) ∧ sample.sum = 1 ∧
      ∀ u, draws = [u] → sample = [1] := by
  obtain ⟨x, hx, hx0⟩ := hpos
  have hne : draws ≠ [] := by
    intro h
    rw [h] at hx
    simp at hx
  have hsorted : List.Sorted (fun a b => a ≤ b) (List.insertionSort (fun a b => a ≤ b) draws) :=
    List.sorted_insertionSort (fun a b => a ≤ b) draws
  have hperm := List.perm_insertionSort (fun a b => a ≤ b) draws
  have hxmem : x ∈ List.insertionSort (fun a b => a ≤ b) draws := hperm.mem_iff.mpr hx
  have hm : 0 < lastD 0 (List.insertionSort (fun a b => a ≤ b) draws) :=
    lt_of_lt_of_le hx0 (mem_le_lastD _ 0 x hsorted hxmem)
  refine ⟨simplexSample draws, simplex_ok_core draws hne hm, simplexSample_length draws,
    ?_, simplexSample_sum draws (ne_of_gt hm), ?_⟩
  · intro y hy
    rw [simplexSample] at hy
    obtain ⟨d, hd, rfl⟩ := List.mem_map.mp hy
    have hd0 : 0 ≤ d := by
      refine diffFrom_nonneg _ 0 hsorted ?_ d hd
      intro z hz
      exact hnn z (hperm.mem_iff.mp hz)
    exact div_nonneg hd0 (le_of_lt hm)
  · intro u hu
    subst hu
    have hu0 : 0 < u := by
      have := List.mem_singleton.mp hx
      rw [this] at hx0
      exact hx0
    have hsu : List.insertionSort (fun a b => a ≤ b) [u] = [u] := rfl
    rw [simplexSample, hsu]
    show List.map (fun x => x / lastD 0 [u]) [u - 0] = [1]
    have hlast : lastD 0 [u] = u := rfl
    rw [hlast]
    simp [sub_zero, div_self (ne_of_gt hu0)]

/-- Witness for C7 at the single positive draw 1. -/
theorem simplex_sample_spec_under_positive_max_witness :
    ∃ sample, uniform_from_unit_simplex [(1 : ℚ)] = Except.ok sample ∧
      sample.length = 1 ∧ (∀ y ∈ sample, 0 ≤ y) ∧ sample.sum = 1 ∧
      ∀ u, [(1 : ℚ)] = [u] → sample = [1] :=
  simplex_sample_spec_under_positive_max [1] (by decide) (by decide)

/-- C9 counterexample: with zero objectives the rows are empty, the survival
test `np.any(row <= c)` is vacuously false, and the very first loop iteration
clears the whole mask - including the current point itself.  A single point
with an empty row is dropped, while the order-independent strong-dominance
filter keeps it (there is no other point at all). -/
theorem effLoop_zero_objectives_diverges :
    effLoop [[]] = [false] ∧ pareto_spec_mask [[]] = [true] := by
  constructor <;> rfl

/-- C9 (amended): when every row has the same positive length k, the
incremental masking loop computes exactly the order-independent
strong-dominance filter, and it does so for every processing order that
covers all indices - so the result is independent of iteration order. -/
theorem effLoop_eq_pareto_spec_mask (avals : List (List ℚ)) (k : Nat) (order : List Nat)
    (hk : 0 < k) (hrows : ∀ r ∈ avals, r.length = k)
    (horder : ∀ i, i < avals.length → i ∈ order) :
    effLoop avals = pareto_spec_mask avals ∧
      effLoopOrder avals order = pareto_spec_mask avals :=
  ⟨effLoopOrder_eq_spec_core avals k (List.range avals.length) hk hrows
      (fun i hi => List.mem_range.mpr hi),
    effLoopOrder_eq_spec_core avals k order hk hrows horder⟩

/-- Witness for C9 on the two points [0] and [1] with the reversed
processing order [1, 0]. -/
theorem effLoop_eq_pareto_spec_mask_witness :
    effLoop [[(0 : ℚ)], [1]] = pareto_spec_mask [[(0 : ℚ)], [1]] ∧
      effLoopOrder [[(0 : ℚ)], [1]] [1, 0] = pareto_spec_mask [[(0 : ℚ)], [1]] :=
  effLoop_eq_pareto_spec_mask [[(0 : ℚ)], [1]] 1 [1, 0] (by decide) (by decide)
    (by
      intro i hi
      simp only [List.length_cons, List.length_nil] at hi
      interval_cases i <;> decide)

/-- C10: when the largest draw (the last entry of the sorted draw vector) is
exactly 0, the float code computes 0.0/0.0 = NaN in every entry, the trailing
sum test compares NaN and is false, and the assertion fires - the output is
never a valid sample; when the largest draw is strictly positive, the
division is well-defined and the returned sample sums to exactly 1. -/
theorem simplex_division_by_zero_behavior (draws : List ℚ) (hne : draws ≠ []) :
    (lastD 0 (List.insertionSort (fun a b => a ≤ b) draws) = 0 →
      uniform_from_unit_simplex draws =
        Except.error "AssertionError: Error in weight sampling routine.") ∧
    (0 < lastD 0 (List.insertionSort (fun a b => a ≤ b) draws) →
      ∃ sample, uniform_from_unit_simplex draws = Except.ok sample ∧ sample.sum = 1) := by
  constructor
  · intro h0
    rw [uniform_from_unit_simplex, insertionSort_isEmpty_false draws hne]
    rw [if_neg (by simp), if_pos h0]
  · intro hpos
    exact ⟨simplexSample draws, simplex_ok_core draws hne hpos,
      simplexSample_sum draws (ne_of_gt hpos)⟩

/-- Witness for C10 at the all-zero draw vector [0, 0]: the maximum is 0 and
the sampler fails. -/
theorem simplex_division_by_zero_behavior_witness :
    uniform_from_unit_simplex [(0 : ℚ), 0] =
      Except.error "AssertionError: Error in weight sampling routine." :=
  (simplex_division_by_zero_behavior [0, 0] (by decide)).1 (by rfl)

/-- C1 counterexample: two MIN objectives; point A = (t,1) with values (0,0)
is component-wise no-worse than point B = (t,2) with values (0,1) and
strictly better in the second objective, so under the claimed dominance rule
B must be excluded and A retained - yet the code retains BOTH points: the
masking loop only removes points that are strictly worse in every objective. -/
theorem weakly_dominated_point_retained :
    retrieve_pareto_front [("t", [[("m", 0), ("n", 0)], [("m", 0), ("n", 1)]])]
      [("m", "MIN"), ("n", "MIN")] =
    Except.ok [mkFrontRecord [("m", "MIN"), ("n", "MIN")] (("t", 1), [0, 0]),
      mkFrontRecord [("m", "MIN"), ("n", "MIN")] (("t", 2), [0, 1])] := by
  have hca : computeAVals [[(0 : ℚ), 0], [0, 1]] [-1, -1] = Except.ok [[0, 0], [0, 1]] := by
    simp [computeAVals, transformRow]
  rw [retrieve_unfold [("t", [[("m", 0), ("n", 0)], [("m", 0), ("n", 1)]])]
    [("m", "MIN"), ("n", "MIN")] [(("t", 1), [0, 0]), (("t", 2), [0, 1])] [-1, -1]
    [[0, 0], [0, 1]] rfl rfl hca]
  rfl

/-- C1 (corrected): whenever the filter succeeds on a spec with at least one
objective, the front consists exactly of the flattened points for which no
other flattened point is strictly better in EVERY objective after sign
normalization (strong dominance), in flattening order; weakly-dominated
points and ties are retained. -/
theorem pareto_front_eq_strong_dominance_filter
    (th : List (String × List (List (String × ℚ)))) (ob : List (String × String))
    (flat : List ((String × Nat) × List ℚ)) (sign : List ℚ) (front : List FrontRecord)
    (hk : 0 < ob.length)
    (hf : flattenHistory th ob = Except.ok flat)
    (hs : prepare_sign_vector ob = Except.ok sign)
    (hret : retrieve_pareto_front th ob = Except.ok front) :
    front = ((List.range flat.length).filter (fun e => specKeep (avalsOf flat sign) e)).map
      (fun e => mkFrontRecord ob (flat.getD e defaultPoint)) := by
  rcases eq_or_ne flat [] with hnil | hne
  · subst hnil
    by_cases hlen : sign.length ≤ 1
    · have hca : computeAVals ([] : List (List ℚ)) sign = Except.ok [] := by
        rw [computeAVals]
        rw [if_pos (show (List.isEmpty ([] : List (List ℚ))) = true from rfl), if_pos hlen]
      rw [retrieve_unfold th ob [] sign [] hf hs hca] at hret
      injection hret with h
      rw [← h]
      rfl
    · have hca : computeAVals ([] : List (List ℚ)) sign
          = Except.error "ValueError: operands could not be broadcast together" := by
        rw [computeAVals]
        rw [if_pos (show (List.isEmpty ([] : List (List ℚ))) = true from rfl), if_neg hlen]
      rw [retrieve_avals_error th ob [] sign _ hf hs hca] at hret
      exact Except.noConfusion hret
  · have hspec := retrieve_eq_spec th ob flat sign hk hf hs hne
    rw [hspec] at hret
    injection hret with h
    exact h.symm

/-- Witness for C1 on a one-objective, one-point history. -/
theorem pareto_front_eq_strong_dominance_filter_witness :
    [mkFrontRecord [("a", "MIN")] (("t", 1), [0])] =
      ((List.range 1).filter
        (fun e => specKeep (avalsOf [(("t", 1), [(0 : ℚ)])] [-1]) e)).map
        (fun e => mkFrontRecord [("a", "MIN")] ([(("t", 1), [(0 : ℚ)])].getD e defaultPoint)) :=
  pareto_front_eq_strong_dominance_filter [("t", [[("a", 0)]])] [("a", "MIN")]
    [(("t", 1), [0])] [-1] [mkFrontRecord [("a", "MIN")] (("t", 1), [0])]
    (by decide) rfl rfl
    (by
      have hca : computeAVals [[(0 : ℚ)]] [-1] = Except.ok [[0]] := by
        simp [computeAVals, transformRow]
      rw [retrieve_unfold [("t", [[("a", 0)]])] [("a", "MIN")]
        [(("t", 1), [0])] [-1] [[0]] rfl rfl hca]
      rfl)

/-- C2 counterexample: an empty history with a two-objective spec makes
`np.array([])` (shape (0,)) broadcast against the sign vector (shape (2,)),
which raises a ValueError instead of returning an empty front. -/
theorem empty_history_two_objectives_errors :
    retrieve_pareto_front [] [("a", "MIN"), ("b", "MIN")] =
      Except.error "ValueError: operands could not be broadcast together" := by rfl

/-- C2 (corrected): with valid directions and at most one objective, an empty
flattening (no tasks, or all result sequences empty) yields an empty front
without failing; the two-or-more-objective case fails instead (see the
counterexample). -/
theorem empty_flatten_single_objective_ok (th : List (String × List (List (String × ℚ))))
    (ob : List (String × String))
    (hv : ∀ o ∈ ob, o.2 = "MIN" ∨ o.2 = "MAX")
    (hlen : ob.length ≤ 1)
    (hf : flattenHistory th ob = Except.ok []) :
    retrieve_pareto_front th ob = Except.ok [] := by
  obtain ⟨sign, hs, hslen, _⟩ := sign_vector_spec_core ob hv
  have hca : computeAVals ([] : List (List ℚ)) sign = Except.ok [] := by
    rw [computeAVals]
    rw [if_pos (show (List.isEmpty ([] : List (List ℚ))) = true from rfl),
      if_pos (by rw [hslen]; exact hlen)]
  have hr := retrieve_unfold th ob [] sign [] hf hs hca
  simpa using hr

/-- Witness for C2: the empty history with one MIN objective. -/
theorem empty_flatten_single_objective_ok_witness :
    retrieve_pareto_front [] [("a", "MIN")] = Except.ok [] :=
  empty_flatten_single_objective_ok [] [("a", "MIN")] (by decide) (by decide) rfl

/-- C3 counterexample: the tied points (t,1) and (t,2) both carry values
(1,1); the third point (t,3) = (0,0) is strictly better in both MIN
objectives, so the code eliminates BOTH tied points - contradicting the
claim that two tied points are always retained regardless of further
points. -/
theorem tied_points_eliminated_by_third :
    retrieve_pareto_front
      [("t", [[("m", 1), ("n", 1)], [("m", 1), ("n", 1)], [("m", 0), ("n", 0)]])]
      [("m", "MIN"), ("n", "MIN")] =
    Except.ok [mkFrontRecord [("m", "MIN"), ("n", "MIN")] (("t", 3), [0, 0])] := by
  have hca : computeAVals [[(1 : ℚ), 1], [1, 1], [0, 0]] [-1, -1]
      = Except.ok [[1, 1], [1, 1], [0, 0]] := by
    simp [computeAVals, transformRow]
  rw [retrieve_unfold
    [("t", [[("m", 1), ("n", 1)], [("m", 1), ("n", 1)], [("m", 0), ("n", 0)]])]
    [("m", "MIN"), ("n", "MIN")]
    [(("t", 1), [1, 1]), (("t", 2), [1, 1]), (("t", 3), [0, 0])]
    [-1, -1] [[1, 1], [1, 1], [0, 0]] rfl rfl hca]
  rfl

/-- C3 (corrected): two points with identical objective rows never eliminate
each other - a point is removed only by a point strictly better in every
objective, which a tied row can never be - so whenever no point strongly
dominates the tied pair, both tied points are retained; and a single-point
history with at least one objective yields a front containing exactly that
point. -/
theorem ties_and_singleton_retention :
    (∀ th ob flat sign front e1 e2,
      0 < List.length ob →
      flattenHistory th ob = Except.ok flat →
      prepare_sign_vector ob = Except.ok sign →
      retrieve_pareto_front th ob = Except.ok front →
      e1 < flat.length → e2 < flat.length → e1 ≠ e2 →
      (flat.getD e1 defaultPoint).2 = (flat.getD e2 defaultPoint).2 →
      specKeep (avalsOf flat sign) e1 = true →
      mkFrontRecord ob (flat.getD e1 defaultPoint) ∈ front ∧
        mkFrontRecord ob (flat.getD e2 defaultPoint) ∈ front) ∧
    (∀ th ob p front,
      0 < List.length ob →
      flattenHistory th ob = Except.ok [p] →
      retrieve_pareto_front th ob = Except.ok front →
      front = [mkFrontRecord ob p]) := by
  constructor
  · intro th ob flat sign front e1 e2 hk hf hs hret he1 he2 hne12 heq hkeep
    have hne : flat ≠ [] := by
      intro h
      rw [h] at he1
      simp at he1
    have hspec := retrieve_eq_spec th ob flat sign hk hf hs hne
    rw [hspec] at hret
    injection hret with hfront
    have hlenav : (avalsOf flat sign).length = flat.length := by
      rw [avalsOf, List.length_map]
    have hrowlen : ∀ q ∈ flat, q.2.length = ob.length :=
      flattenHistory_row_length th ob flat hf
    have hslen : sign.length = ob.length := prepare_sign_vector_length ob sign hs
    have hroweq : (avalsOf flat sign).getD e1 [] = (avalsOf flat sign).getD e2 [] := by
      rw [avalsOf_getD flat sign e1 he1, avalsOf_getD flat sign e2 he2, heq]
    have hrne : (avalsOf flat sign).getD e1 [] ≠ [] := by
      have hmem := getD_mem (avalsOf flat sign) [] e1 (by rw [hlenav]; exact he1)
      have hlr := avalsOf_row_length flat sign ob.length hrowlen hslen _ hmem
      intro h0
      rw [h0] at hlr
      simp at hlr
      omega
    have hkeep2 : specKeep (avalsOf flat sign) e2 = true := by
      rw [specKeep_eq_true_iff]
      intro j hj hjne
      by_cases hje1 : j = e1
      · subst hje1
        rw [← hroweq]
        exact strictAllLt_self_eq_false _ hrne
      · have hfj := (specKeep_eq_true_iff (avalsOf flat sign) e1).mp hkeep j hj hje1
        rw [← hroweq]
        exact hfj
    rw [← hfront]
    constructor
    · exact List.mem_map_of_mem _
        (List.mem_filter.mpr ⟨List.mem_range.mpr he1, hkeep⟩)
    · exact List.mem_map_of_mem _
        (List.mem_filter.mpr ⟨List.mem_range.mpr he2, hkeep2⟩)
  · intro th ob p front hk hf hret
    cases hsv : prepare_sign_vector ob with
    | error e =>
      rw [retrieve_sign_error th ob [p] e hf hsv] at hret
      exact Except.noConfusion hret
    | ok sign =>
      have hspec := retrieve_eq_spec th ob [p] sign hk hf hsv (by simp)
      rw [hspec] at hret
      injection hret with hfront
      rw [← hfront]
      have hkeep : specKeep (avalsOf [p] sign) 0 = true := by
        rw [specKeep_eq_true_iff]
        intro j hj hjne
        rw [avalsOf, List.length_map, List.length_singleton] at hj
        omega
      rw [List.length_singleton, show List.range 1 = [0] from rfl]
      simp [hkeep]

/-- Witness for C3: a concrete tied pair with no dominating third point, and
a concrete singleton history. -/
theorem ties_and_singleton_retention_witness :
    (mkFrontRecord [("a", "MIN")]
        ([(("t", 1), [(0 : ℚ)]), (("t", 2), [0])].getD 0 defaultPoint) ∈
        [mkFrontRecord [("a", "MIN")] (("t", 1), [0]),
          mkFrontRecord [("a", "MIN")] (("t", 2), [0])] ∧
      mkFrontRecord [("a", "MIN")]
        ([(("t", 1), [(0 : ℚ)]), (("t", 2), [0])].getD 1 defaultPoint) ∈
        [mkFrontRecord [("a", "MIN")] (("t", 1), [0]),
          mkFrontRecord [("a", "MIN")] (("t", 2), [0])]) ∧
    [mkFrontRecord [("a", "MIN")] (("t", 1), [(0 : ℚ)])] =
      [mkFrontRecord [("a", "MIN")] (("t", 1), [0])] := by
  constructor
  · exact ties_and_singleton_retention.1 [("t", [[("a", 0)], [("a", 0)]])] [("a", "MIN")]
      [(("t", 1), [0]), (("t", 2), [0])] [-1]
      [mkFrontRecord [("a", "MIN")] (("t", 1), [0]),
        mkFrontRecord [("a", "MIN")] (("t", 2), [0])]
      0 1 (by decide) rfl rfl
      (by
        have hca : computeAVals [[(0 : ℚ)], [0]] [-1] = Except.ok [[0], [0]] := by
          simp [computeAVals, transformRow]
        rw [retrieve_unfold [("t", [[("a", 0)], [("a", 0)]])] [("a", "MIN")]
          [(("t", 1), [0]), (("t", 2), [0])] [-1] [[0], [0]] rfl rfl hca]
        rfl)
      (by decide) (by decide) (by decide) rfl
      (by
        have hav : avalsOf [(("t", 1), [(0 : ℚ)]), (("t", 2), [0])] [-1] = [[0], [0]] := by
          simp [avalsOf, transformRow]
        rw [hav]
        rfl)
  · exact ties_and_singleton_retention.2 [("t", [[("a", 0)]])] [("a", "MIN")]
      (("t", 1), [0]) [mkFrontRecord [("a", "MIN")] (("t", 1), [0])]
      (by decide) rfl
      (by
        have hca : computeAVals [[(0 : ℚ)]] [-1] = Except.ok [[0]] := by
          simp [computeAVals, transformRow]
        rw [retrieve_unfold [("t", [[("a", 0)]])] [("a", "MIN")]
          [(("t", 1), [0])] [-1] [[0]] rfl rfl hca]
        rfl)

/-- C8: every record of a successfully computed front refers to some history
entry: its special key carries (task id, step + 1) with the 1-based step
index over that task's result sequence, and its value list pairs the
objective names, in objective-spec order, with the original untransformed
values extracted from that history record. -/
theorem front_record_format (th : List (String × List (List (String × ℚ))))
    (ob : List (String × String)) (front : List FrontRecord) (r : FrontRecord)
    (hret : retrieve_pareto_front th ob = Except.ok front)
    (hr : r ∈ front) :
    ∃ tid results j row, (tid, results) ∈ th ∧ j < results.length ∧
      extractRow ob (results.getD j []) = Except.ok row ∧
      r.task_id_ressource = (tid, j + 1) ∧
      r.values = List.zipWith (fun o v => (o.1, v)) ob row := by
  obtain ⟨flat, sign, avals, hf, hs, hca, hfront⟩ := retrieve_ok_elim th ob front hret
  rw [hfront] at hr
  obtain ⟨e, he, rfl⟩ := List.mem_map.mp hr
  have helt : e < flat.length := List.mem_range.mp (List.mem_filter.mp he).1
  obtain ⟨tid, results, j, hmem, hj, hrow, href⟩ :=
    flattenHistory_mem th ob flat hf _ (getD_mem flat defaultPoint e helt)
  exact ⟨tid, results, j, (flat.getD e defaultPoint).2, hmem, hj, hrow, href, rfl⟩

/-- Witness for C8 on a one-point history. -/
theorem front_record_format_witness :
    ∃ tid results j row,
      (tid, results) ∈ [("t", [[("a", (0 : ℚ))]])] ∧ j < results.length ∧
      extractRow [("a", "MIN")] (results.getD j []) = Except.ok row ∧
      (mkFrontRecord [("a", "MIN")] (("t", 1), [0])).task_id_ressource = (tid, j + 1) ∧
      (mkFrontRecord [("a", "MIN")] (("t", 1), [0])).values =
        List.zipWith (fun o v => (o.1, v)) [("a", "MIN")] row :=
  front_record_format [("t", [[("a", 0)]])] [("a", "MIN")]
    [mkFrontRecord [("a", "MIN")] (("t", 1), [0])]
    (mkFrontRecord [("a", "MIN")] (("t", 1), [0]))
    (by
      have hca : computeAVals [[(0 : ℚ)]] [-1] = Except.ok [[0]] := by
        simp [computeAVals, transformRow]
      rw [retrieve_unfold [("t", [[("a", 0)]])] [("a", "MIN")]
        [(("t", 1), [0])] [-1] [[0]] rfl rfl hca]
      rfl)
    (List.mem_singleton.mpr rfl)
